import Mathlib

/-!
# NoteDiscovery — formal model of the file-backed note store and link graph

Shallow embedding of `src/backend/utils.py` (path security, note/folder CRUD,
attachment upload) and the graph construction routine of
`src/backend/main.py::get_graph` (wikilink / markdown link extraction and
tiered link resolution).

Paths are modelled as lists of segments.  The filesystem is a pair of
association structures (files with contents, directories).  Python functions
that can raise an uncaught exception return `PyResult`; partial mutations
performed before the exception are kept in the returned state.
-/

namespace ND

/-! ## Character-level string primitives

Python string methods are modelled over `List Char` so that every
definition evaluates inside the kernel.  ASCII semantics (the only case
the source exercises). -/

/-- `str.split(sep)` for a one-character separator. -/
def splitOnChar (sep : Char) (cs : List Char) : List (List Char) :=
  cs.foldr
    (fun c acc =>
      match acc with
      | [] => [[c]]
      | g :: gs => if c = sep then [] :: g :: gs else (c :: g) :: gs)
    [[]]

/-- `str.startswith`. -/
def strStartsWith (s pre : String) : Bool := pre.data.isPrefixOf s.data

/-- `str.endswith`. -/
def strEndsWith (s suf : String) : Bool := suf.data.isSuffixOf s.data

/-- ASCII lowercasing of one character. -/
def lowerChar (c : Char) : Char :=
  if 'A' ≤ c ∧ c ≤ 'Z' then Char.ofNat (c.toNat + 32) else c

/-- `str.lower()` (ASCII). -/
def strToLower (s : String) : String := String.mk (s.data.map lowerChar)

/-- Python whitespace for `str.strip()`. -/
def isSpaceChar (c : Char) : Bool :=
  c = ' ' ∨ c = '\t' ∨ c = '\n' ∨ c = '\r' ∨ c = '\x0b' ∨ c = '\x0c'

/-- `str.strip()`. -/
def strTrim (s : String) : String :=
  String.mk
    (((s.data.dropWhile isSpaceChar).reverse.dropWhile isSpaceChar).reverse)

/-- `str.replace('.md', '')`: remove every (non-overlapping, left-to-right)
occurrence of `.md` — the only `replace` the source performs. -/
def stripMdOcc : List Char → List Char
  | '.' :: 'm' :: 'd' :: rest => stripMdOcc rest
  | c :: rest => c :: stripMdOcc rest
  | [] => []

/-- `replace('.md', '')` on a string. -/
def stripMd (s : String) : String := String.mk (stripMdOcc s.data)

/-- Rejoin groups with a separator: the inverse of `splitOnChar` on
separator-free groups. -/
def joinChars (sep : Char) : List (List Char) → List Char
  | [] => []
  | [g] => g
  | g :: g2 :: rest => g ++ sep :: joinChars sep (g2 :: rest)

/-- Lexicographic (code-point) order on strings, as Python's `sorted`
compares them. -/
def charListLe : List Char → List Char → Bool
  | [], _ => true
  | _ :: _, [] => false
  | a :: as, b :: bs =>
    if a < b then true else if a = b then charListLe as bs else false

/-- A filesystem path, as a list of segments relative to the OS root.
`notes_dir` and all resolved paths live in this form. -/
abbrev AbsPath := List String

/-- Split a path string on `/` (mirrors the textual form handed to `pathlib`). -/
def splitPath (s : String) : List String := (splitOnChar '/' s.data).map String.mk

/-- `True` when the candidate string denotes an absolute path, which overrides
the left operand of `pathlib`'s `/` operator. -/
def isAbsolute (s : String) : Bool := strStartsWith s "/"

/-- `Path(notes_dir) / p`: an absolute `p` replaces `notes_dir` entirely. -/
def joinPath (notes_dir : AbsPath) (p : String) : List String :=
  if isAbsolute p then splitPath p else notes_dir ++ splitPath p

/-- `pathlib` drops empty and `.` components when a `Path` is constructed;
`..` components are kept. -/
def pathComponents (segs : List String) : List String :=
  segs.filter (fun s => s ≠ "" && s ≠ ".")

/-- `Path.resolve()`: collapse `.`, empty and `..` segments into a canonical
absolute path (at the OS root, `..` stays at the root).  Symlinks are not
modelled. -/
def resolveSegs (segs : List String) : AbsPath :=
  segs.foldl
    (fun acc s =>
      if s = "" ∨ s = "." then acc
      else if s = ".." then acc.dropLast
      else acc ++ [s])
    []

/-- `utils.validate_path_security`: `path.resolve().relative_to(notes_dir.resolve())`
succeeds exactly when the resolved base is a segment-wise prefix of the
resolved candidate. -/
def validate_path_security (notes_dir : AbsPath) (path : List String) : Bool :=
  (resolveSegs notes_dir).isPrefixOf (resolveSegs path)

/-- Result of running a Python function: either its return value or an
uncaught exception. -/
inductive PyResult (α : Type) where
  | ok (val : α)
  | raised
deriving Repr, DecidableEq

/-- Filesystem state: files (path with contents) and directories. -/
structure FS where
  files : List (AbsPath × String)
  dirs : List AbsPath
deriving Repr, DecidableEq

/-- Content of the file at `p`, when present. -/
def FS.findFile? (fs : FS) (p : AbsPath) : Option String :=
  (fs.files.find? (fun e => e.1 = p)).map (fun e => e.2)

/-- `p` names an existing regular file. -/
def FS.isFile (fs : FS) (p : AbsPath) : Bool := (fs.findFile? p).isSome

/-- `p` names an existing directory. -/
def FS.isDir (fs : FS) (p : AbsPath) : Bool := decide (p ∈ fs.dirs)

/-- `Path.exists()` on the resolved path. -/
def FS.pathExists (fs : FS) (p : AbsPath) : Bool := fs.isFile p || fs.isDir p

/-- Create or overwrite the file at `p`. -/
def FS.writeFile (fs : FS) (p : AbsPath) (c : String) : FS :=
  { fs with files := (p, c) :: fs.files.filter (fun e => e.1 ≠ p) }

/-- Remove the file at `p` (no effect on directories). -/
def FS.removeFile (fs : FS) (p : AbsPath) : FS :=
  { fs with files := fs.files.filter (fun e => e.1 ≠ p) }

/-- The nonempty initial segments of `p`, shortest first. -/
def prefixesOf (p : AbsPath) : List AbsPath :=
  (List.range p.length).map (fun i => p.take (i + 1))

/-- `Path.mkdir(parents=True, exist_ok=True)` on the resolved path `p`:
creates `p` and every missing ancestor; raises when `p` or an ancestor
already exists as a regular file. -/
def FS.mkdirParents (fs : FS) (p : AbsPath) : Option FS :=
  if (prefixesOf p).any (fun q => fs.isFile q) then none
  else some { fs with dirs := prefixesOf p ++ fs.dirs }

/-- Relocate every entry under `old` to live under `new` instead. -/
def remapPath (old new p : AbsPath) : AbsPath :=
  if old.isPrefixOf p then new ++ p.drop old.length else p

/-- Move the whole subtree rooted at `old` to `new`. -/
def FS.moveTree (fs : FS) (old new : AbsPath) : FS :=
  { files := fs.files.map (fun e => (remapPath old new e.1, e.2)),
    dirs := fs.dirs.map (remapPath old new) }

/-- Is there any entry strictly below directory `p`? -/
def FS.dirNonempty (fs : FS) (p : AbsPath) : Bool :=
  fs.files.any (fun e => p.isPrefixOf e.1) ||
    fs.dirs.any (fun d => p.isPrefixOf d && d ≠ p)

/-- Remove the directory entry `p` itself. -/
def FS.removeDir (fs : FS) (p : AbsPath) : FS :=
  { fs with dirs := fs.dirs.filter (fun d => d ≠ p) }

/-- POSIX `rename(old, new)` on resolved paths (callers in this code base
create `new`'s parent directory beforehand).  A file destination is replaced
silently; renaming a file onto a directory, a directory onto a file, a
directory onto a nonempty directory, or a directory into its own subtree
raises. -/
def FS.rename (fs : FS) (old new : AbsPath) : Option FS :=
  if old = new then some fs
  else if fs.isFile old then
    if fs.isDir new then none
    else
      match fs.findFile? old with
      | some c => some ((fs.removeFile old).writeFile new c)
      | none => none
  else if fs.isDir old then
    if fs.isFile new then none
    else if old.isPrefixOf new then none
    else if fs.isDir new then
      if fs.dirNonempty new then none
      else some ((fs.removeDir new).moveTree old new)
    else some (fs.moveTree old new)
  else none

/-- `shutil.rmtree` on the resolved directory `p`. -/
def FS.rmtree (fs : FS) (p : AbsPath) : FS :=
  { files := fs.files.filter (fun e => ¬ p.isPrefixOf e.1),
    dirs := fs.dirs.filter (fun d => ¬ p.isPrefixOf d) }

/-! ## NoteStore operations (`src/backend/utils.py`) -/

/-- `utils.create_folder`. -/
def create_folder (notes_dir : AbsPath) (folder_path : String) (fs : FS) :
    PyResult Bool × FS :=
  let full := pathComponents (joinPath notes_dir folder_path)
  if ¬ validate_path_security notes_dir full then (.ok false, fs)
  else
    match fs.mkdirParents (resolveSegs full) with
    | some fs1 => (.ok true, fs1)
    | none => (.raised, fs)

/-- `String.intercalate` inverse of `splitPath`. -/
def joinSegs (segs : List String) : String :=
  String.mk (List.intercalate ['/'] (segs.map String.data))

/-- `utils.get_all_folders`: every directory strictly below `notes_dir`,
as a relative slash-joined string, skipping names that start with `.`,
sorted lexicographically.  (`rglob` yields each directory once; the model
deduplicates the directory list.) -/
def get_all_folders (notes_dir : AbsPath) (fs : FS) : List String :=
  let root := resolveSegs notes_dir
  let rels := fs.dirs.filterMap (fun d =>
    if root.isPrefixOf d ∧ d ≠ root then
      let s := joinSegs (d.drop root.length)
      if s ≠ "" ∧ ¬ strStartsWith s "." then some s else none
    else none)
  (rels.dedup).insertionSort (fun a b => charListLe a.data b.data = true)

/-- `utils.move_note`. -/
def move_note (notes_dir : AbsPath) (old_path new_path : String) (fs : FS) :
    PyResult Bool × FS :=
  let oldFull := pathComponents (joinPath notes_dir old_path)
  let newFull := pathComponents (joinPath notes_dir new_path)
  if ¬ validate_path_security notes_dir oldFull ∨
      ¬ validate_path_security notes_dir newFull then (.ok false, fs)
  else
    let oldR := resolveSegs oldFull
    let newR := resolveSegs newFull
    if ¬ fs.pathExists oldR then (.ok false, fs)
    else
      match fs.mkdirParents (resolveSegs newFull.dropLast) with
      | none => (.raised, fs)
      | some fs1 =>
        match fs1.rename oldR newR with
        | some fs2 => (.ok true, fs2)
        | none => (.raised, fs1)

/-- `utils.move_folder`. -/
def move_folder (notes_dir : AbsPath) (old_path new_path : String) (fs : FS) :
    PyResult Bool × FS :=
  let oldFull := pathComponents (joinPath notes_dir old_path)
  let newFull := pathComponents (joinPath notes_dir new_path)
  if ¬ validate_path_security notes_dir oldFull ∨
      ¬ validate_path_security notes_dir newFull then (.ok false, fs)
  else
    let oldR := resolveSegs oldFull
    let newR := resolveSegs newFull
    if ¬ (fs.pathExists oldR ∧ fs.isDir oldR) then (.ok false, fs)
    else if fs.pathExists newR then (.ok false, fs)
    else
      match fs.mkdirParents (resolveSegs newFull.dropLast) with
      | none => (.raised, fs)
      | some fs1 =>
        match fs1.rename oldR newR with
        | some fs2 => (.ok true, fs2)
        | none => (.raised, fs1)

/-- `utils.rename_folder` delegates to `move_folder`. -/
def rename_folder (notes_dir : AbsPath) (old_path new_path : String) (fs : FS) :
    PyResult Bool × FS :=
  move_folder notes_dir old_path new_path fs

/-- `utils.delete_folder` (its body is wrapped in a `try` that returns
`False` on any exception, so it never raises). -/
def delete_folder (notes_dir : AbsPath) (folder_path : String) (fs : FS) :
    PyResult Bool × FS :=
  let full := pathComponents (joinPath notes_dir folder_path)
  if ¬ validate_path_security notes_dir full then (.ok false, fs)
  else
    let r := resolveSegs full
    if ¬ fs.pathExists r then (.ok false, fs)
    else if ¬ fs.isDir r then (.ok false, fs)
    else (.ok true, fs.rmtree r)

/-- `utils.get_note_content` (pure read: never mutates, never raises). -/
def get_note_content (notes_dir : AbsPath) (note_path : String) (fs : FS) :
    Option String :=
  let full := pathComponents (joinPath notes_dir note_path)
  let r := resolveSegs full
  if ¬ fs.pathExists r ∨ ¬ fs.isFile r then none
  else if ¬ validate_path_security notes_dir full then none
  else fs.findFile? r

/-! ## `pathlib` name / stem / suffix on a single path component -/

/-- Length of the `pathlib` suffix of a component name: the part from the
last dot, provided that dot is neither the first nor the last character. -/
def pySuffixLen (name : List Char) : Nat :=
  let after := name.reverse.takeWhile (fun c => c ≠ '.')
  if after.length = name.length then 0
  else if after.length = 0 then 0
  else if name.length - 1 - after.length = 0 then 0
  else after.length + 1

/-- `PurePath.stem` of a single component. -/
def pyStemStr (name : String) : String :=
  String.mk (name.data.take (name.data.length - pySuffixLen name.data))

/-- `PurePath.suffix` of a single component. -/
def pySuffixStr (name : String) : String :=
  String.mk (name.data.drop (name.data.length - pySuffixLen name.data))

/-- `PurePath.with_suffix(suf)` applied to a component name: drop the old
suffix (if any) and append `suf`. -/
def pyWithSuffix (name : String) (suf : String) : String :=
  String.mk (name.data.take (name.data.length - pySuffixLen name.data) ++ suf.data)

/-- The path `utils.save_note` actually writes to: the joined path as
given when `note_path` already ends in `.md`, otherwise the joined path
with `with_suffix('.md')` applied to its final component (`none` when the
path has no final component, in which case `with_suffix` raises). -/
def saveFullPath (notes_dir : AbsPath) (note_path : String) :
    Option (List String) :=
  let full0 := pathComponents (joinPath notes_dir note_path)
  if strEndsWith note_path ".md" then some full0
  else
    match full0.getLast? with
    | none => none
    | some last => some (full0.dropLast ++ [pyWithSuffix last ".md"])

/-- The given note path with `with_suffix('.md')` applied to its final
slash-separated component: the extension-bearing path string that
`save_note` actually addresses when handed an extensionless path. -/
def withSuffixMdPath (p : String) : String :=
  let groups := splitOnChar '/' p.data
  String.mk (joinChars '/'
    (groups.dropLast ++
      [(pyWithSuffix (String.mk (groups.getLastD [])) ".md").data]))

/-- `utils.save_note`: ensures a `.md` suffix via `with_suffix` when the
given path does not end in `.md`, security-checks, creates parent
directories, writes.  `with_suffix` on a path with no final component
raises; so does opening an existing directory for writing. -/
def save_note (notes_dir : AbsPath) (note_path : String) (content : String)
    (fs : FS) : PyResult Bool × FS :=
  match saveFullPath notes_dir note_path with
  | none => (.raised, fs)
  | some full =>
    if ¬ validate_path_security notes_dir full then (.ok false, fs)
    else
      let target := resolveSegs full
      match fs.mkdirParents (resolveSegs full.dropLast) with
      | none => (.raised, fs)
      | some fs1 =>
        if fs1.isDir target then (.raised, fs1)
        else (.ok true, fs1.writeFile target content)

/-- `utils.delete_note`: existence check, then security check, then
`unlink` (which raises on a directory). -/
def delete_note (notes_dir : AbsPath) (note_path : String) (fs : FS) :
    PyResult Bool × FS :=
  let full := pathComponents (joinPath notes_dir note_path)
  let r := resolveSegs full
  if ¬ fs.pathExists r then (.ok false, fs)
  else if ¬ validate_path_security notes_dir full then (.ok false, fs)
  else if fs.isFile r then (.ok true, fs.removeFile r)
  else (.raised, fs)

/-! ## Attachment upload (`utils.sanitize_filename`, `utils.get_attachment_dir`,
`utils.save_uploaded_image`) -/

/-- `str.rsplit('.', 1)`: the part before the last dot, and — when a dot is
present — the part after it. -/
def pyRsplitDot1 (s : String) : String × Option String :=
  let rev := s.data.reverse
  let after := rev.takeWhile (fun c => c ≠ '.')
  if after.length = s.data.length then (s, none)
  else
    (String.mk (s.data.take (s.data.length - after.length - 1)),
      some (String.mk after.reverse))

/-- `re.sub(r'[^a-zA-Z0-9_-]', '_', ·)` on one character. -/
def cleanChar (c : Char) : Char :=
  if c.isAlphanum ∨ c = '_' ∨ c = '-' then c else '_'

/-- `utils.sanitize_filename`: splits off the extension at the last dot,
replaces every character of the base name outside `[a-zA-Z0-9_-]` by `_`,
and reattaches the (unsanitized) extension. -/
def sanitize_filename (filename : String) : String :=
  let parts := pyRsplitDot1 filename
  let name := String.mk (parts.1.data.map cleanChar)
  match parts.2 with
  | some ext => if ext ≠ "" then name ++ "." ++ ext else name
  | none => name

/-- `utils.get_attachment_dir`: the `_attachments` sibling of the note's
folder (the storage root when the note lives at the root; an absolute
`note_path` makes its own parent override `notes_dir`). -/
def get_attachment_dir (notes_dir : AbsPath) (note_path : String) :
    List String :=
  if note_path = "" then notes_dir ++ ["_attachments"]
  else if isAbsolute note_path then
    (pathComponents (splitPath note_path)).dropLast ++ ["_attachments"]
  else
    let folder := (pathComponents (splitPath note_path)).dropLast
    if folder = [] then notes_dir ++ ["_attachments"]
    else notes_dir ++ folder ++ ["_attachments"]

/-- The stored attachment name built inside `utils.save_uploaded_image`:
sanitized stem, dash, timestamp (`datetime.now().strftime('%Y%m%d%H%M%S')`,
passed here as the argument `ts`), then the sanitized name's suffix. -/
def final_filename (filename ts : String) : String :=
  let s := sanitize_filename filename
  pyStemStr s ++ "-" ++ ts ++ pySuffixStr s

/-- `utils.save_uploaded_image`.  Note the order of effects in the source:
the attachments directory is created (line 373) before the containment
check on the full path (line 379).  The file write and the final
`relative_to` run inside a `try` whose handler returns `None`. -/
def save_uploaded_image (notes_dir : AbsPath) (note_path filename ts data : String)
    (fs : FS) : PyResult (Option String) × FS :=
  let adir := get_attachment_dir notes_dir note_path
  match fs.mkdirParents (resolveSegs adir) with
  | none => (.raised, fs)
  | some fs1 =>
    let full := adir ++ [final_filename filename ts]
    if ¬ validate_path_security notes_dir full then (.ok none, fs1)
    else
      let target := resolveSegs full
      if fs1.isDir target then (.ok none, fs1)
      else
        let fs2 := fs1.writeFile target data
        if notes_dir.isPrefixOf full then
          (.ok (some (joinSegs (full.drop notes_dir.length))), fs2)
        else (.ok none, fs2)

/-! ## Link extraction (`main.py::get_graph`, regex scans) -/

/-- `md_file.stem` for a note path string: the `pathlib` stem of its final
component. -/
def noteStem (p : String) : String :=
  pyStemStr ((pathComponents (splitPath p)).getLastD "")

/-- One attempt of the wikilink regex `\[\[([^\]|]+)(?:\|[^\]]+)?\]\]` at a
position just after a literal `[[`: a nonempty run of characters outside
`]|`, an optional `|display` part, then `]]`. -/
def tryWiki (rest : List Char) : Option (String × List Char) :=
  let run := rest.takeWhile (fun c => c != ']' && c != '|')
  let r2 := rest.drop run.length
  if run = [] then none
  else
    match r2 with
    | ']' :: ']' :: tail => some (String.mk run, tail)
    | '|' :: r3 =>
      let disp := r3.takeWhile (fun c => c != ']')
      let r4 := r3.drop disp.length
      if disp = [] then none
      else
        match r4 with
        | ']' :: ']' :: tail => some (String.mk run, tail)
        | _ => none
    | _ => none

theorem tryWiki_some_length (rest : List Char) (t : String) (tail : List Char)
    (h : tryWiki rest = some (t, tail)) : tail.length < rest.length := by
  simp only [tryWiki] at h
  split at h
  · exact absurd h (by simp)
  · split at h
    · rename_i heq
      have h2 : (rest.drop (rest.takeWhile (fun c => c != ']' && c != '|')).length).length
          ≤ rest.length := by
        rw [List.length_drop]; omega
      rw [heq] at h2
      simp only [List.length_cons] at h2
      cases h
      omega
    · rename_i r3 heq
      split at h
      · exact absurd h (by simp)
      · split at h
        · rename_i heq2
          have h2 : (rest.drop (rest.takeWhile (fun c => c != ']' && c != '|')).length).length
              ≤ rest.length := by
            rw [List.length_drop]; omega
          rw [heq] at h2
          have h3 : (r3.drop (r3.takeWhile (fun c => c != ']')).length).length
              ≤ r3.length := by
            rw [List.length_drop]; omega
          rw [heq2] at h3
          simp only [List.length_cons] at h2 h3
          cases h
          omega
        · exact absurd h (by simp)
    · exact absurd h (by simp)

/-- `re.findall` over the whole text for the wikilink pattern: scan left to
right, attempt at every `[[`, resume after each match (non-overlapping)
or one character further on failure.  Structural recursion on a fuel
counter; by `tryWiki_some_length` every recursive call strictly shrinks
the character list, so a fuel equal to the input length (see `scanWiki`)
never runs out. -/
def scanWikiF : Nat → List Char → List String
  | _, [] => []
  | 0, _ => []
  | Nat.succ fuel, '[' :: '[' :: rest =>
    (match tryWiki rest with
    | some (t, tail) => t :: scanWikiF fuel tail
    | none => scanWikiF fuel ('[' :: rest))
  | Nat.succ fuel, _ :: rest => scanWikiF fuel rest

/-- The wikilink matches of a text. -/
def scanWiki (cs : List Char) : List String := scanWikiF cs.length cs

/-- The negative lookahead `(?!https?://|mailto:|#|data:)` of the markdown
link regex, tested right after the opening parenthesis. -/
def lookaheadBlocked (r : List Char) : Bool :=
  "http://".data.isPrefixOf r || "https://".data.isPrefixOf r ||
    "mailto:".data.isPrefixOf r || "#".data.isPrefixOf r ||
    "data:".data.isPrefixOf r

/-- One attempt of the markdown link regex
`\[([^\]]+)\]\((?!https?://|mailto:|#|data:)([^\)]+)\)` at a position just
after a literal `[`. -/
def tryMd (rest : List Char) : Option (String × String × List Char) :=
  let txt := rest.takeWhile (fun c => c != ']')
  let r2 := rest.drop txt.length
  if txt = [] then none
  else
    match r2 with
    | ']' :: '(' :: r3 =>
      if lookaheadBlocked r3 then none
      else
        let dest := r3.takeWhile (fun c => c != ')')
        let r4 := r3.drop dest.length
        if dest = [] then none
        else
          match r4 with
          | ')' :: tail => some (String.mk txt, String.mk dest, tail)
          | _ => none
    | _ => none

theorem tryMd_some_length (rest : List Char) (t d : String) (tail : List Char)
    (h : tryMd rest = some (t, d, tail)) : tail.length < rest.length := by
  simp only [tryMd] at h
  split at h
  · exact absurd h (by simp)
  · split at h
    · rename_i r3 heq
      split at h
      · exact absurd h (by simp)
      · split at h
        · exact absurd h (by simp)
        · split at h
          · rename_i heq2
            have h2 : (rest.drop (rest.takeWhile (fun c => c != ']')).length).length
                ≤ rest.length := by
              rw [List.length_drop]; omega
            rw [heq] at h2
            have h3 : (r3.drop (r3.takeWhile (fun c => c != ')')).length).length
                ≤ r3.length := by
              rw [List.length_drop]; omega
            rw [heq2] at h3
            simp only [List.length_cons] at h2 h3
            cases h
            omega
          · exact absurd h (by simp)
    · exact absurd h (by simp)

/-- `re.findall` for the markdown link pattern, producing (text, destination)
pairs.  Fueled like `scanWikiF`, justified by `tryMd_some_length`. -/
def scanMdF : Nat → List Char → List (String × String)
  | _, [] => []
  | 0, _ => []
  | Nat.succ fuel, '[' :: rest =>
    (match tryMd rest with
    | some (t, d, tail) => (t, d) :: scanMdF fuel tail
    | none => scanMdF fuel rest)
  | Nat.succ fuel, _ :: rest => scanMdF fuel rest

/-- The markdown link matches of a text. -/
def scanMd (cs : List Char) : List (String × String) := scanMdF cs.length cs

/-! ## Link resolution (`main.py::get_graph`, lines 1028-1145) -/

/-- The matching index built once per graph build: `note_paths` (a set),
`note_paths_lower` and `note_names` (dicts where a later insertion for the
same key wins — modelled by prepending, looked up front-to-back). -/
structure Corpus where
  note_paths : List String
  note_paths_lower : List (String × String)
  note_names : List (String × String)
deriving Repr, DecidableEq

/-- Python `dict` lookup over the prepend-modelled association list. -/
def dictGet? (d : List (String × String)) (k : String) : Option String :=
  (d.find? (fun e => e.1 = k)).map (fun e => e.2)

/-- Index construction (lines 1033-1043).  Per note path `p`: `p` and
`p.replace('.md','')` join `note_paths`; their lowercase forms key
`note_paths_lower`; the stem (with a further `.replace('.md','')` variant)
keys `note_names`.  Within one note the stem entry is assigned after the
replaced-name entry, so it shadows it. -/
def buildCorpus (paths : List String) : Corpus :=
  paths.foldl
    (fun c p =>
      let name := stripMd (noteStem p)
      { note_paths := p :: stripMd p :: c.note_paths,
        note_paths_lower :=
          (strToLower (stripMd p), p) :: (strToLower p, p) ::
            c.note_paths_lower,
        note_names :=
          (strToLower (noteStem p), p) :: (strToLower name, p) :: c.note_names })
    ⟨[], [], []⟩

/-- Wikilink target resolution (lines 1064-1084), on the already-extracted
target: strip, then the `elif` chain over the index. -/
def resolveWikilink (c : Corpus) (target0 : String) : Option String :=
  let target := strTrim target0
  let tl := strToLower target
  if c.note_paths.contains target then
    some (if strEndsWith target ".md" then target else target ++ ".md")
  else if c.note_paths.contains (target ++ ".md") then some (target ++ ".md")
  else
    match dictGet? c.note_paths_lower tl with
    | some v => some v
    | none =>
      match dictGet? c.note_paths_lower (tl ++ ".md") with
      | some v => some v
      | none => dictGet? c.note_names tl

/-- Markdown link target resolution (lines 1110-1138), on the normalized
destination: the `elif` chain, falling back to a filename-only lookup. -/
def resolveMarkdown (c : Corpus) (lp : String) : Option String :=
  let lpmd := if strEndsWith lp ".md" then lp else lp ++ ".md"
  if c.note_paths.contains lp then
    some (if strEndsWith lp ".md" then lp else lp ++ ".md")
  else if c.note_paths.contains lpmd then some lpmd
  else
    match dictGet? c.note_paths_lower (strToLower lp) with
    | some v => some v
    | none =>
      match dictGet? c.note_paths_lower (strToLower lpmd) with
      | some v => some v
      | none =>
        let filename := ((splitOnChar '/' lp.data).map String.mk).getLastD ""
        let fmd := if strEndsWith filename ".md" then filename
          else filename ++ ".md"
        match dictGet? c.note_names (strToLower filename) with
        | some v => some v
        | none => dictGet? c.note_names (strToLower fmd)

/-- Hexadecimal digit value, for percent-decoding. -/
def hexVal? (c : Char) : Option Nat :=
  if '0' ≤ c ∧ c ≤ '9' then some (c.toNat - '0'.toNat)
  else if 'a' ≤ c ∧ c ≤ 'f' then some (c.toNat - 'a'.toNat + 10)
  else if 'A' ≤ c ∧ c ≤ 'F' then some (c.toNat - 'A'.toNat + 10)
  else none

/-- `urllib.parse.unquote`, modelled for single-byte (ASCII) escapes: a
valid `%XX` becomes the character with that code, anything else is kept;
multi-byte UTF-8 escape sequences are not modelled. -/
def unquoteChars : List Char → List Char
  | [] => []
  | '%' :: a :: b :: rest =>
    match hexVal? a, hexVal? b with
    | some x, some y => Char.ofNat (16 * x + y) :: unquoteChars rest
    | _, _ => '%' :: unquoteChars (a :: b :: rest)
  | c :: rest => c :: unquoteChars rest

/-- Destination normalization for markdown links (lines 1096-1107):
skip empty or anchor-only destinations, cut the `#fragment`, percent-decode,
drop a leading `./`. -/
def normalizeMdTarget (raw : String) : Option String :=
  if raw = "" ∨ strStartsWith raw "#" then none
  else
    let lp := ((splitOnChar '#' raw.data).map String.mk).headD ""
    if lp = "" then none
    else
      let lp := String.mk (unquoteChars lp.data)
      let lp := if strStartsWith lp "./" then String.mk (lp.data.drop 2) else lp
      some lp

/-! ## Graph assembly (`main.py::get_graph`, lines 1045-1156) -/

/-- One edge of the returned graph (JSON keys `source`, `target`, `type`). -/
structure Edge where
  source : String
  target : String
  kind : String
deriving Repr, DecidableEq

/-- The deduplication key used at lines 1147-1154: the ordered pair. -/
def edgeKey (e : Edge) : String × String := (e.source, e.target)

/-- `# Remove duplicate edges` loop: keep the first edge for each key. -/
def dedupEdges : List Edge → List (String × String) → List Edge
  | [], _ => []
  | e :: rest, seen =>
    if edgeKey e ∈ seen then dedupEdges rest seen
    else e :: dedupEdges rest (edgeKey e :: seen)

/-- Node label: `note['name'].replace('.md', '')`. -/
def noteLabel (p : String) : String := stripMd (noteStem p)

/-- The edges contributed by one note's content: resolved wikilinks (kind
`wikilink`) then resolved markdown links (kind `markdown`), self-edges
discarded. -/
def noteEdges (c : Corpus) (path content : String) : List Edge :=
  (scanWiki content.data).filterMap (fun t =>
    match resolveWikilink c t with
    | some tp => if tp ≠ path then some ⟨path, tp, "wikilink"⟩ else none
    | none => none) ++
  (scanMd content.data).filterMap (fun td =>
    match normalizeMdTarget td.2 with
    | none => none
    | some lp =>
      match resolveMarkdown c lp with
      | some tp => if tp ≠ path then some ⟨path, tp, "markdown"⟩ else none
      | none => none)

/-- All edges before deduplication.  A note is given as its path and the
result of reading it (`none` = read failure, skipped; empty content is
falsy in `if content:` and is skipped as well). -/
def rawEdges (notes : List (String × Option String)) : List Edge :=
  let c := buildCorpus (notes.map (fun n => n.1))
  (notes.map (fun n =>
    match n.2 with
    | some content => if content ≠ "" then noteEdges c n.1 content else []
    | none => [])).flatten

/-- The returned graph value. -/
structure Graph where
  nodes : List (String × String)
  edges : List Edge
deriving Repr, DecidableEq

/-- `main.py::get_graph`, over the enumerated markdown notes (path and
read content). -/
def get_graph (notes : List (String × Option String)) : Graph :=
  { nodes := notes.map (fun n => (n.1, noteLabel n.1)),
    edges := dedupEdges (rawEdges notes) [] }

/-! ## The resolver tier order as the specification words it

The claim describes the resolver as trying, in order: (1) exact path match
with extension implied, (2) target plus the document extension, (3) the
case-insensitive form of (1), (4) the case-insensitive form of (2), (5) a
case-insensitive display-name match ignoring folders and, (6) — inline
references only — the final path segment retried against tier (5).  The
definitions below follow those words. -/

/-- First hit of a tier list, in order. -/
def firstHit (tiers : List (Option String)) : Option String :=
  tiers.foldl
    (fun acc t =>
      match acc with
      | some v => some v
      | none => t)
    none

/-- Tier 1: exact path match, extension implied in the answer. -/
def tierExactPath (c : Corpus) (t : String) : Option String :=
  if c.note_paths.contains t then
    some (if strEndsWith t ".md" then t else t ++ ".md")
  else none

/-- Tier 2: the target plus the document extension. -/
def tierPlusExt (c : Corpus) (t : String) : Option String :=
  if c.note_paths.contains (t ++ ".md") then some (t ++ ".md") else none

/-- Tier 3: case-insensitive form of tier 1. -/
def tierCIPath (c : Corpus) (t : String) : Option String :=
  dictGet? c.note_paths_lower (strToLower t)

/-- Tier 4: case-insensitive form of tier 2. -/
def tierCIPlusExt (c : Corpus) (t : String) : Option String :=
  dictGet? c.note_paths_lower (strToLower t ++ ".md")

/-- Tier 5: case-insensitive display-name match, folders ignored. -/
def tierName (c : Corpus) (t : String) : Option String :=
  dictGet? c.note_names (strToLower t)

/-- Tier 6 as the claim words it: the final path segment retried against
tier (5). -/
def tierLastSegName (c : Corpus) (t : String) : Option String :=
  tierName c (((splitOnChar '/' t.data).map String.mk).getLastD "")

/-- The claimed wikilink resolver: tiers 1-5 in order on the stripped
target. -/
def resolveWikiClaim (c : Corpus) (target0 : String) : Option String :=
  let t := strTrim target0
  firstHit [tierExactPath c t, tierPlusExt c t, tierCIPath c t,
    tierCIPlusExt c t, tierName c t]

/-- The claimed inline resolver: tiers 1-6 in order. -/
def resolveInlineClaim (c : Corpus) (t : String) : Option String :=
  firstHit [tierExactPath c t, tierPlusExt c t, tierCIPath c t,
    tierCIPlusExt c t, tierName c t, tierLastSegName c t]

/-- Tier 2 as the inline code path actually computes it: the extension is
appended only when missing. -/
def tierPlusExtIfMissing (c : Corpus) (t : String) : Option String :=
  let tmd := if strEndsWith t ".md" then t else t ++ ".md"
  if c.note_paths.contains tmd then some tmd else none

/-- Tier 4 as the inline code path actually computes it. -/
def tierCIPlusExtIfMissing (c : Corpus) (t : String) : Option String :=
  dictGet? c.note_paths_lower
    (strToLower (if strEndsWith t ".md" then t else t ++ ".md"))

/-- Tiers 5/6 as the inline code path actually computes them: the final
path segment is looked up among display names, then retried with the
extension appended when missing. -/
def tierFileName (c : Corpus) (t : String) : Option String :=
  let fn := ((splitOnChar '/' t.data).map String.mk).getLastD ""
  match dictGet? c.note_names (strToLower fn) with
  | some v => some v
  | none =>
    dictGet? c.note_names
      (strToLower (if strEndsWith fn ".md" then fn else fn ++ ".md"))

/-- The amended inline resolver tier order. -/
def resolveInlineAmended (c : Corpus) (t : String) : Option String :=
  firstHit [tierExactPath c t, tierPlusExtIfMissing c t, tierCIPath c t,
    tierCIPlusExtIfMissing c t, tierFileName c t]

/-- The unordered source/target pair of an edge. -/
def unorderedKey (e : Edge) : String × String :=
  if charListLe e.source.data e.target.data then (e.source, e.target)
  else (e.target, e.source)

/-! ## Theorems -/

/-- C1: refuted on `save_uploaded_image` — with storage root `/d` and note
path `../evil/n.md`, the attachments directory `/evil/_attachments` is
created *outside* the root before the containment check runs; the call
returns `None` but the filesystem has already been mutated. -/
theorem save_uploaded_image_mutates_before_check :
    save_uploaded_image ["d"] "../evil/n.md" "a.png" "20250101120000" "img"
        ⟨[], [["d"]]⟩ =
      (.ok none, ⟨[], [["evil"], ["evil", "_attachments"], ["d"]]⟩) ∧
    (["evil", "_attachments"] : AbsPath) ∉ (⟨[], [["d"]]⟩ : FS).dirs ∧
    validate_path_security ["d"] ["evil", "_attachments"] = false := by
  decide

/-- C3 counterexample: the inline resolver does not follow the claimed tier
order.  With notes `p/x.md.md` and `q/x.md.md`, the destination `p/x.md`
would hit tier (2) of the claimed order (`p/x.md` plus the extension is a
known path) and resolve to `p/x.md.md`; the code instead falls through to
its filename lookup and returns `q/x.md.md`. -/
theorem resolveMarkdown_ne_claimed_tiers :
    resolveMarkdown (buildCorpus ["p/x.md.md", "q/x.md.md"]) "p/x.md" =
        some "q/x.md.md" ∧
      resolveInlineClaim (buildCorpus ["p/x.md.md", "q/x.md.md"]) "p/x.md" =
        some "p/x.md.md" := by
  decide

/-- C4 counterexample: deduplication is *not* by unordered pair.  Two notes
linking to each other produce two edges whose unordered pairs coincide. -/
theorem get_graph_dedup_not_unordered :
    (get_graph [("A.md", some "[[B]]"), ("B.md", some "[[A]]")]).edges =
        [⟨"A.md", "B.md", "wikilink"⟩, ⟨"B.md", "A.md", "wikilink"⟩] ∧
      unorderedKey ⟨"A.md", "B.md", "wikilink"⟩ =
        unorderedKey ⟨"B.md", "A.md", "wikilink"⟩ ∧
      (⟨"A.md", "B.md", "wikilink"⟩ : Edge) ≠ ⟨"B.md", "A.md", "wikilink"⟩ := by
  decide

/-- C5 counterexample: `move_note` onto an existing destination does not
fail with a conflict; it succeeds and silently overwrites the destination
file (here `b.md`, whose content `B` is replaced by `A`). -/
theorem move_note_overwrites_destination :
    (move_note ["d"] "a.md" "b.md"
          ⟨[(["d", "a.md"], "A"), (["d", "b.md"], "B")], [["d"]]⟩).1 =
        .ok true ∧
      (move_note ["d"] "a.md" "b.md"
            ⟨[(["d", "a.md"], "A"), (["d", "b.md"], "B")], [["d"]]⟩).2.findFile?
          ["d", "b.md"] = some "A" := by
  decide

/-- C7 counterexample: `get_note_content` does not normalize a missing
`.md` extension — reading `n` misses the note stored at `n.md`. -/
theorem get_note_content_no_extension_normalization :
    get_note_content ["d"] "n" ⟨[(["d", "n.md"], "x")], [["d"]]⟩ = none ∧
      get_note_content ["d"] "n.md" ⟨[(["d", "n.md"], "x")], [["d"]]⟩ =
        some "x" := by
  decide

/-- C6: a folder move whose destination already exists returns the failure
result and leaves the filesystem — source folder and pre-existing
destination included — completely untouched. -/
theorem move_folder_conflict_no_mutation (notes_dir : AbsPath)
    (old_path new_path : String) (fs : FS)
    (h : fs.pathExists
        (resolveSegs (pathComponents (joinPath notes_dir new_path))) = true) :
    move_folder notes_dir old_path new_path fs = (.ok false, fs) := by
  simp only [move_folder]
  split_ifs <;> rfl

theorem move_folder_conflict_no_mutation_witness :
    move_folder ["d"] "f" "g"
        ⟨[(["d", "f", "n.md"], "N")], [["d"], ["d", "f"], ["d", "g"]]⟩ =
      (.ok false, ⟨[(["d", "f", "n.md"], "N")], [["d"], ["d", "f"], ["d", "g"]]⟩) :=
  move_folder_conflict_no_mutation ["d"] "f" "g" _ (by decide)

/-- C10: at the read and delete interfaces an out-of-containment path and a
nonexistent note are indistinguishable: both produce `none` from
`get_note_content` and `(False, fs)` from `delete_note`, with no state
change and no exception. -/
theorem read_delete_outside_root_like_missing (notes_dir : AbsPath)
    (p : String) (fs : FS) :
    (validate_path_security notes_dir
          (pathComponents (joinPath notes_dir p)) = false →
        get_note_content notes_dir p fs = none ∧
          delete_note notes_dir p fs = (.ok false, fs)) ∧
      (fs.pathExists
            (resolveSegs (pathComponents (joinPath notes_dir p))) = false →
        get_note_content notes_dir p fs = none ∧
          delete_note notes_dir p fs = (.ok false, fs)) := by
  simp only [get_note_content, delete_note]
  constructor <;> intro h <;> constructor <;> split_ifs <;> simp_all

theorem findFile?_writeFile_self (fs : FS) (p : AbsPath) (c : String) :
    (fs.writeFile p c).findFile? p = some c := by
  simp [FS.writeFile, FS.findFile?]

/-- Helper: a successful `save_note` passed the security check and produced
exactly the filesystem with the parent chain created and the target file
written. -/
theorem save_note_ok_shape (notes_dir : AbsPath) (p c : String) (fs fs' : FS)
    (full : List String) (hfp : saveFullPath notes_dir p = some full)
    (hs : save_note notes_dir p c fs = (.ok true, fs')) :
    validate_path_security notes_dir full = true ∧
      fs' = FS.writeFile
          ⟨fs.files, prefixesOf (resolveSegs full.dropLast) ++ fs.dirs⟩
          (resolveSegs full) c := by
  simp only [save_note, hfp] at hs
  by_cases hv : validate_path_security notes_dir full = true
  · refine ⟨hv, ?_⟩
    rw [if_neg (by simp [hv])] at hs
    rcases hmk : fs.mkdirParents (resolveSegs full.dropLast) with _ | fs1
    · rw [hmk] at hs
      exact absurd hs (by simp)
    · rw [hmk] at hs
      simp only [] at hs
      have hfs1 : fs1 =
          ⟨fs.files, prefixesOf (resolveSegs full.dropLast) ++ fs.dirs⟩ := by
        simp only [FS.mkdirParents] at hmk
        split at hmk
        · exact absurd hmk (by simp)
        · cases hmk
          rfl
      by_cases hd : fs1.isDir (resolveSegs full) = true
      · rw [if_pos hd] at hs
        exact absurd hs (by simp)
      · rw [if_neg hd] at hs
        have h2 := congrArg Prod.snd hs
        simp only [] at h2
        rw [← h2, hfs1]
  · rw [if_pos (by simp [hv])] at hs
    exact absurd hs (by simp)

/-- C2: round trip — when `save_note` succeeds on a path that carries the
`.md` extension, `get_note_content` on the same path returns exactly the
saved content. -/
theorem save_then_read (notes_dir : AbsPath) (p c : String) (fs fs' : FS)
    (hmd : strEndsWith p ".md" = true)
    (hs : save_note notes_dir p c fs = (.ok true, fs')) :
    get_note_content notes_dir p fs' = some c := by
  have hfp : saveFullPath notes_dir p =
      some (pathComponents (joinPath notes_dir p)) := by
    simp [saveFullPath, hmd]
  obtain ⟨hv, hfs2⟩ := save_note_ok_shape notes_dir p c fs fs' _ hfp hs
  have hfind : fs'.findFile?
      (resolveSegs (pathComponents (joinPath notes_dir p))) = some c := by
    rw [hfs2]
    exact findFile?_writeFile_self _ _ _
  simp [get_note_content, FS.pathExists, FS.isFile, hfind, hv]

theorem save_then_read_witness :
    get_note_content ["d"] "n.md"
        (save_note ["d"] "n.md" "hello" ⟨[], [["d"]]⟩).2 = some "hello" :=
  save_then_read ["d"] "n.md" "hello" ⟨[], [["d"]]⟩ _ (by decide) (by decide)

theorem find?_key_filter_ne (l : List (AbsPath × String)) (p q : AbsPath)
    (h : q ≠ p) :
    (l.filter (fun e => e.1 ≠ p)).find? (fun e => e.1 = q) =
      l.find? (fun e => e.1 = q) := by
  induction l with
  | nil => rfl
  | cons x rest ih =>
    by_cases hx : x.1 = p
    · rw [List.filter_cons_of_neg (by simp [hx])]
      rw [List.find?_cons_of_neg _ (by simp only [hx, decide_eq_true_eq]; exact Ne.symm h)]
      exact ih
    · rw [List.filter_cons_of_pos (by simp [hx])]
      by_cases hq : x.1 = q
      · rw [List.find?_cons_of_pos _ (by simp [hq]),
          List.find?_cons_of_pos _ (by simp [hq])]
      · rw [List.find?_cons_of_neg _ (by simp [hq]),
          List.find?_cons_of_neg _ (by simp [hq])]
        exact ih

theorem findFile?_writeFile_ne (fs : FS) (p q : AbsPath) (c : String)
    (h : q ≠ p) : (fs.writeFile p c).findFile? q = fs.findFile? q := by
  simp only [FS.writeFile, FS.findFile?]
  rw [List.find?_cons_of_neg _ (by simpa using Ne.symm h)]
  rw [find?_key_filter_ne fs.files p q h]

theorem findFile?_removeFile_self (fs : FS) (p : AbsPath) :
    (fs.removeFile p).findFile? p = none := by
  have hnone : (fs.files.filter (fun e => e.1 ≠ p)).find?
      (fun e => e.1 = p) = none := by
    rw [List.find?_eq_none]
    intro x hx
    simp only [List.mem_filter] at hx
    simpa using hx.2
  simp [FS.removeFile, FS.findFile?, hnone]

/-- C5 (amended): `move_note` performs no destination-conflict check.
A move whose source does not exist returns `False` with no mutation
(NotFound); a move whose source resolves to a file and whose resolved
destination is not a directory succeeds as a single rename, silently
replacing whatever file existed at the destination with the source's
content and removing the source. -/
theorem move_note_notfound_and_overwrite (notes_dir : AbsPath)
    (old_path new_path : String) (fs fs1 : FS) :
    (fs.pathExists
          (resolveSegs (pathComponents (joinPath notes_dir old_path))) =
            false →
        move_note notes_dir old_path new_path fs = (.ok false, fs)) ∧
      (validate_path_security notes_dir
            (pathComponents (joinPath notes_dir old_path)) = true →
        validate_path_security notes_dir
            (pathComponents (joinPath notes_dir new_path)) = true →
        fs.isFile
            (resolveSegs (pathComponents (joinPath notes_dir old_path))) =
          true →
        fs.mkdirParents
            (resolveSegs
              (pathComponents (joinPath notes_dir new_path)).dropLast) =
          some fs1 →
        fs1.isDir
            (resolveSegs (pathComponents (joinPath notes_dir new_path))) =
          false →
        resolveSegs (pathComponents (joinPath notes_dir old_path)) ≠
          resolveSegs (pathComponents (joinPath notes_dir new_path)) →
        (move_note notes_dir old_path new_path fs).1 = .ok true ∧
          (move_note notes_dir old_path new_path fs).2.findFile?
              (resolveSegs (pathComponents (joinPath notes_dir new_path))) =
            fs.findFile?
              (resolveSegs (pathComponents (joinPath notes_dir old_path))) ∧
          (move_note notes_dir old_path new_path fs).2.findFile?
              (resolveSegs (pathComponents (joinPath notes_dir old_path))) =
            none) := by
  constructor
  · intro hnex
    simp only [move_note]
    split_ifs <;> simp_all
  · intro hvo hvn hf hmk hnd hne
    have hfiles : fs1.files = fs.files := by
      simp only [FS.mkdirParents] at hmk
      split at hmk
      · exact absurd hmk (by simp)
      · cases hmk
        rfl
    have hfind1 : fs1.findFile?
        (resolveSegs (pathComponents (joinPath notes_dir old_path))) =
          fs.findFile?
        (resolveSegs (pathComponents (joinPath notes_dir old_path))) := by
      simp [FS.findFile?, hfiles]
    rcases hc : fs.findFile?
        (resolveSegs (pathComponents (joinPath notes_dir old_path)))
      with _ | c0
    · rw [FS.isFile, hc] at hf
      exact absurd hf (by simp)
    · have hren : fs1.rename
          (resolveSegs (pathComponents (joinPath notes_dir old_path)))
          (resolveSegs (pathComponents (joinPath notes_dir new_path))) =
            some ((fs1.removeFile
              (resolveSegs (pathComponents (joinPath notes_dir old_path)))).writeFile
              (resolveSegs (pathComponents (joinPath notes_dir new_path))) c0) := by
        rw [FS.rename, if_neg hne]
        rw [if_pos (by simp [FS.isFile, hfind1, hc])]
        rw [if_neg (by simp [hnd])]
        rw [hfind1, hc]
      have hmove : move_note notes_dir old_path new_path fs =
          (.ok true, (fs1.removeFile
            (resolveSegs (pathComponents (joinPath notes_dir old_path)))).writeFile
            (resolveSegs (pathComponents (joinPath notes_dir new_path))) c0) := by
        simp only [move_note]
        rw [if_neg (by simp [hvo, hvn])]
        rw [if_neg (by simp [FS.pathExists, hf])]
        rw [hmk]
        simp only []
        rw [hren]
      refine ⟨by rw [hmove], ?_, ?_⟩
      · rw [hmove]
        simp only []
        rw [findFile?_writeFile_self]
      · rw [hmove]
        simp only []
        rw [findFile?_writeFile_ne _ _ _ _ hne]
        exact findFile?_removeFile_self _ _

theorem move_note_notfound_and_overwrite_witness :
    (move_note ["d"] "gone.md" "b.md" ⟨[(["d", "b.md"], "B")], [["d"]]⟩ =
        (.ok false, ⟨[(["d", "b.md"], "B")], [["d"]]⟩)) ∧
      ((move_note ["d"] "a.md" "b.md"
            ⟨[(["d", "a.md"], "A"), (["d", "b.md"], "B")], [["d"]]⟩).1 =
          .ok true ∧
        (move_note ["d"] "a.md" "b.md"
              ⟨[(["d", "a.md"], "A"), (["d", "b.md"], "B")], [["d"]]⟩).2.findFile?
            ["d", "b.md"] = some "A" ∧
        (move_note ["d"] "a.md" "b.md"
              ⟨[(["d", "a.md"], "A"), (["d", "b.md"], "B")], [["d"]]⟩).2.findFile?
            ["d", "a.md"] = none) := by
  constructor
  · exact (move_note_notfound_and_overwrite ["d"] "gone.md" "b.md" _
      ⟨[(["d", "b.md"], "B")], [["d"]]⟩).1 (by decide)
  · have h := (move_note_notfound_and_overwrite ["d"] "a.md" "b.md"
      ⟨[(["d", "a.md"], "A"), (["d", "b.md"], "B")], [["d"]]⟩
      ⟨[(["d", "a.md"], "A"), (["d", "b.md"], "B")], [["d"], ["d"]]⟩).2
      (by decide) (by decide) (by decide) (by decide) (by decide) (by decide)
    rcases h with ⟨h1, h2, h3⟩
    refine ⟨h1, ?_, ?_⟩
    · rw [show (resolveSegs (pathComponents (joinPath ["d"] "b.md"))) =
        (["d", "b.md"] : AbsPath) by decide] at h2
      rw [show (resolveSegs (pathComponents (joinPath ["d"] "a.md"))) =
        (["d", "a.md"] : AbsPath) by decide] at h2
      rw [h2]
      decide
    · rw [show (resolveSegs (pathComponents (joinPath ["d"] "a.md"))) =
        (["d", "a.md"] : AbsPath) by decide] at h3
      exact h3

theorem resolveSegs_concat (l : List String) (s : String)
    (h1 : ¬ (s = "" ∨ s = ".")) (h2 : s ≠ "..") :
    resolveSegs (l ++ [s]) = resolveSegs l ++ [s] := by
  simp only [resolveSegs, List.foldl_append, List.foldl]
  rw [if_neg h1, if_neg h2]

theorem length_le_of_mem_prefixesOf (p q : AbsPath) (h : q ∈ prefixesOf p) :
    q.length ≤ p.length := by
  simp only [prefixesOf, List.mem_map, List.mem_range] at h
  obtain ⟨i, hi, rfl⟩ := h
  simp [List.length_take]

theorem findFile?_removeFile_ne (fs : FS) (p q : AbsPath) (h : q ≠ p) :
    (fs.removeFile p).findFile? q = fs.findFile? q := by
  simp only [FS.removeFile, FS.findFile?]
  rw [find?_key_filter_ne fs.files p q h]

/-- One `cons` step of `splitOnChar`. -/
theorem splitOnChar_cons (sep x : Char) (cs : List Char) :
    splitOnChar sep (x :: cs) =
      match splitOnChar sep cs with
      | [] => [[x]]
      | g :: gs => if x = sep then [] :: g :: gs else (x :: g) :: gs := rfl

theorem splitOnChar_ne_nil (sep : Char) (cs : List Char) :
    splitOnChar sep cs ≠ [] := by
  cases cs with
  | nil => simp [splitOnChar]
  | cons x cs =>
    rw [splitOnChar_cons]
    rcases splitOnChar sep cs with _ | ⟨g, gs⟩
    · simp
    · show (if x = sep then [] :: g :: gs else (x :: g) :: gs) ≠ []
      split <;> simp

theorem sep_not_mem_splitOnChar (sep : Char) (cs : List Char) :
    ∀ g ∈ splitOnChar sep cs, sep ∉ g := by
  induction cs with
  | nil =>
    intro g hg
    simp only [splitOnChar, List.foldr_nil, List.mem_singleton] at hg
    simp [hg]
  | cons x cs ih =>
    intro g hg
    rw [splitOnChar_cons] at hg
    rcases hS : splitOnChar sep cs with _ | ⟨g0, gs⟩
    · exact absurd hS (splitOnChar_ne_nil _ _)
    · rw [hS] at hg
      have hg1 : g ∈ (if x = sep then [] :: g0 :: gs
          else (x :: g0) :: gs) := hg
      by_cases hx : x = sep
      · rw [if_pos hx] at hg1
        rcases List.mem_cons.1 hg1 with rfl | hg2
        · simp
        · exact ih g (hS ▸ hg2)
      · rw [if_neg hx] at hg1
        rcases List.mem_cons.1 hg1 with rfl | hg2
        · intro hmem
          rcases List.mem_cons.1 hmem with rfl | hmem2
          · exact hx rfl
          · exact ih g0 (hS ▸ List.mem_cons_self _ _) hmem2
        · exact ih g (hS ▸ List.mem_cons_of_mem _ hg2)

theorem splitOnChar_cons_sep (sep : Char) (cs : List Char) :
    splitOnChar sep (sep :: cs) = [] :: splitOnChar sep cs := by
  rw [splitOnChar_cons]
  rcases hS : splitOnChar sep cs with _ | ⟨g, gs⟩
  · exact absurd hS (splitOnChar_ne_nil _ _)
  · simp

theorem splitOnChar_cons_of_ne (sep x : Char) (cs : List Char) (h : x ≠ sep) :
    splitOnChar sep (x :: cs) =
      (x :: (splitOnChar sep cs).headD []) :: (splitOnChar sep cs).tail := by
  rw [splitOnChar_cons]
  rcases hS : splitOnChar sep cs with _ | ⟨g, gs⟩
  · exact absurd hS (splitOnChar_ne_nil _ _)
  · simp [h]

theorem splitOnChar_of_not_mem (sep : Char) (cs : List Char) (h : sep ∉ cs) :
    splitOnChar sep cs = [cs] := by
  induction cs with
  | nil => rfl
  | cons x cs ih =>
    have hx : x ≠ sep := fun hEq => h (hEq ▸ List.mem_cons_self _ _)
    rw [splitOnChar_cons_of_ne _ _ _ hx,
      ih (fun hm => h (List.mem_cons_of_mem _ hm))]
    rfl

theorem splitOnChar_append_sep (sep : Char) (g cs : List Char)
    (h : sep ∉ g) :
    splitOnChar sep (g ++ sep :: cs) = g :: splitOnChar sep cs := by
  induction g with
  | nil => simpa using splitOnChar_cons_sep sep cs
  | cons x g ih =>
    have hx : x ≠ sep := fun hEq => h (hEq ▸ List.mem_cons_self _ _)
    rw [List.cons_append, splitOnChar_cons_of_ne _ _ _ hx,
      ih (fun hm => h (List.mem_cons_of_mem _ hm))]
    rfl

theorem splitOnChar_joinChars (sep : Char) (groups : List (List Char))
    (hne : groups ≠ []) (h : ∀ g ∈ groups, sep ∉ g) :
    splitOnChar sep (joinChars sep groups) = groups := by
  induction groups with
  | nil => exact absurd rfl hne
  | cons g rest ih =>
    cases rest with
    | nil => exact splitOnChar_of_not_mem _ _ (h g (List.mem_cons_self _ _))
    | cons g2 rest2 =>
      rw [show joinChars sep (g :: g2 :: rest2) =
        g ++ sep :: joinChars sep (g2 :: rest2) from rfl]
      rw [splitOnChar_append_sep _ _ _ (h g (List.mem_cons_self _ _))]
      rw [ih (by simp) (fun x hx => h x (List.mem_cons_of_mem _ hx))]

theorem head?_some_mem (l : List Char) (a : Char) (h : l.head? = some a) :
    a ∈ l := by
  cases l with
  | nil => simp at h
  | cons x cs =>
    simp only [List.head?_cons, Option.some.injEq] at h
    exact h ▸ List.mem_cons_self _ _

theorem isAbsolute_iff_head (s : String) :
    isAbsolute s = true ↔ s.data.head? = some '/' := by
  rw [isAbsolute, strStartsWith, show ("/" : String).data = ['/'] from rfl]
  cases s.data with
  | nil =>
    show (false = true) ↔ (List.head? ([] : List Char) = some '/')
    simp
  | cons x cs =>
    show ('/' == x && List.isPrefixOf ([] : List Char) cs) = true ↔
      some x = some '/'
    rw [Bool.and_eq_true, beq_iff_eq]
    constructor
    · intro h
      rw [← h.1]
    · intro h
      exact ⟨(Option.some.injEq x '/' ▸ h).symm, by cases cs <;> rfl⟩

theorem splitOnChar_headD_nil_iff (sep : Char) (cs : List Char) :
    (splitOnChar sep cs).headD [] = [] ↔ (cs = [] ∨ cs.head? = some sep) := by
  cases cs with
  | nil => simp [splitOnChar]
  | cons x cs =>
    by_cases hx : x = sep
    · subst hx
      rw [splitOnChar_cons_sep]
      simp
    · rw [splitOnChar_cons_of_ne _ _ _ hx]
      simp [hx]

/-- `with_suffix('.md')` replaces the final extension of the component by
`.md`, keeping the stem — or appends `.md` when there is no extension. -/
theorem pyWithSuffix_md_eq_stem (name : String) :
    pyWithSuffix name ".md" = pyStemStr name ++ ".md" := by
  have hmk : ∀ (l : List Char) (s : String),
      String.mk l ++ s = String.mk (l ++ s.data) := by
    intro l s
    cases s
    rfl
  rw [pyStemStr, hmk]
  rfl

theorem sep_not_mem_pyWithSuffixMd (g : List Char) (h : '/' ∉ g) :
    '/' ∉ (pyWithSuffix (String.mk g) ".md").data := by
  rw [show (pyWithSuffix (String.mk g) ".md").data =
    g.take (g.length - pySuffixLen g) ++ ".md".data from rfl]
  intro hm
  rcases List.mem_append.1 hm with hm | hm
  · exact h (List.take_subset _ _ hm)
  · exact absurd hm (by decide)

theorem pyWithSuffixMd_length (g : List Char) :
    3 ≤ (pyWithSuffix (String.mk g) ".md").data.length := by
  rw [show (pyWithSuffix (String.mk g) ".md").data =
    g.take (g.length - pySuffixLen g) ++ ".md".data from rfl]
  simp

theorem suffix_joinChars_concat (sep : Char) (gs : List (List Char))
    (g : List Char) : g <:+ joinChars sep (gs ++ [g]) := by
  induction gs with
  | nil => exact List.suffix_rfl
  | cons h0 rest ih =>
    rw [show joinChars sep ((h0 :: rest) ++ [g]) =
      h0 ++ sep :: joinChars sep (rest ++ [g]) by cases rest <;> rfl]
    exact (ih.trans (List.suffix_cons _ _)).trans (List.suffix_append _ _)

theorem pathComponents_append (l m : List String) :
    pathComponents (l ++ m) = pathComponents l ++ pathComponents m :=
  List.filter_append _ _

theorem pathComponents_singleton_keep (s : String) (h1 : s ≠ "")
    (h2 : s ≠ ".") : pathComponents [s] = [s] := by
  simp [pathComponents, h1, h2]

/-- The path `save_note` addresses for an extensionless relative note path:
the joined components with `with_suffix('.md')` applied to the last one. -/
theorem saveFullPath_decomp (notes_dir : AbsPath) (p : String)
    (gs : List (List Char)) (g : List Char)
    (hsplit : splitOnChar '/' p.data = gs ++ [g])
    (hmd : strEndsWith p ".md" = false)
    (habs : isAbsolute p = false)
    (hgne : g ≠ []) (hgdot : String.mk g ≠ ".") :
    saveFullPath notes_dir p =
      some ((pathComponents notes_dir ++
          pathComponents (gs.map String.mk)) ++
        [pyWithSuffix (String.mk g) ".md"]) := by
  have hgne2 : String.mk g ≠ "" := fun hEq =>
    hgne (by simpa using congrArg String.data hEq)
  have hjoin : joinPath notes_dir p =
      notes_dir ++ (gs ++ [g]).map String.mk := by
    rw [joinPath, if_neg (by simp [habs]), splitPath, hsplit]
  have hPC : pathComponents (joinPath notes_dir p) =
      (pathComponents notes_dir ++ pathComponents (gs.map String.mk)) ++
        [String.mk g] := by
    rw [hjoin, List.map_append, List.map_singleton, ← List.append_assoc,
      pathComponents_append, pathComponents_append,
      pathComponents_singleton_keep _ hgne2 hgdot]
  simp only [saveFullPath, hPC]
  rw [if_neg (by simp [hmd])]
  simp only [List.getLast?_concat, List.dropLast_concat]

/-- The normalized path string has the same components with `with_suffix`
already applied, so `save_note` addresses the same file through it. -/
theorem saveFullPath_withSuffixMdPath (notes_dir : AbsPath) (p : String)
    (gs : List (List Char)) (g : List Char)
    (hsplit : splitOnChar '/' p.data = gs ++ [g])
    (habs : isAbsolute p = false)
    (_hgne : g ≠ []) :
    saveFullPath notes_dir (withSuffixMdPath p) =
      some ((pathComponents notes_dir ++
          pathComponents (gs.map String.mk)) ++
        [pyWithSuffix (String.mk g) ".md"]) := by
  have hsepAll : ∀ x ∈ gs ++ [g], '/' ∉ x := by
    rw [← hsplit]
    exact sep_not_mem_splitOnChar '/' p.data
  have hgsep : '/' ∉ g :=
    hsepAll g (List.mem_append_right _ (List.mem_cons_self _ _))
  have hdata : (withSuffixMdPath p).data =
      joinChars '/' (gs ++ [(pyWithSuffix (String.mk g) ".md").data]) := by
    rw [show (withSuffixMdPath p).data = joinChars '/'
      ((splitOnChar '/' p.data).dropLast ++
        [(pyWithSuffix
          (String.mk ((splitOnChar '/' p.data).getLastD [])) ".md").data])
      from rfl]
    rw [hsplit, List.dropLast_concat, List.getLastD_eq_getLast?,
      List.getLast?_concat]
    rfl
  have hsplit2 : splitOnChar '/' (withSuffixMdPath p).data =
      gs ++ [(pyWithSuffix (String.mk g) ".md").data] := by
    rw [hdata]
    refine splitOnChar_joinChars _ _ (by simp) ?_
    intro x hx
    rcases List.mem_append.1 hx with hx | hx
    · exact hsepAll x (List.mem_append_left _ hx)
    · rw [List.mem_singleton] at hx
      exact hx ▸ sep_not_mem_pyWithSuffixMd g hgsep
  have hends : strEndsWith (withSuffixMdPath p) ".md" = true := by
    rw [strEndsWith, List.isSuffixOf_iff_suffix, hdata]
    have h1 : ".md".data <:+ (pyWithSuffix (String.mk g) ".md").data :=
      ⟨g.take (g.length - pySuffixLen g), rfl⟩
    exact h1.trans (suffix_joinChars_concat _ _ _)
  have habs2 : isAbsolute (withSuffixMdPath p) = false := by
    rw [Bool.eq_false_iff]
    intro habs1
    rw [isAbsolute_iff_head, hdata] at habs1
    cases gs with
    | nil =>
      rw [List.nil_append,
        show joinChars '/' [(pyWithSuffix (String.mk g) ".md").data] =
          (pyWithSuffix (String.mk g) ".md").data from rfl] at habs1
      exact sep_not_mem_pyWithSuffixMd g hgsep (head?_some_mem _ _ habs1)
    | cons h0 rest =>
      rw [show joinChars '/' ((h0 :: rest) ++
          [(pyWithSuffix (String.mk g) ".md").data]) =
        h0 ++ '/' :: joinChars '/'
          (rest ++ [(pyWithSuffix (String.mk g) ".md").data])
        by cases rest <;> rfl] at habs1
      cases hh0 : h0 with
      | nil =>
        have hhead : (splitOnChar '/' p.data).headD [] = [] := by
          rw [hsplit]
          simp [hh0]
        rcases (splitOnChar_headD_nil_iff '/' p.data).1 hhead with hnil | hsl
        · rw [hnil] at hsplit
          have hlen := congrArg List.length hsplit
          simp [splitOnChar] at hlen
        · exact absurd ((isAbsolute_iff_head p).2 hsl) (by simp [habs])
      | cons y ys =>
        rw [hh0, List.cons_append, List.head?_cons,
          Option.some.injEq] at habs1
        exact hsepAll h0 (List.mem_append_left _ (List.mem_cons_self _ _))
          (by rw [hh0, habs1]; exact List.mem_cons_self _ _)
  have hne2 : pyWithSuffix (String.mk g) ".md" ≠ "" := by
    intro hEq
    have := pyWithSuffixMd_length g
    rw [hEq] at this
    exact absurd this (by decide)
  have hdot2 : pyWithSuffix (String.mk g) ".md" ≠ "." := by
    intro hEq
    have := pyWithSuffixMd_length g
    rw [hEq] at this
    exact absurd this (by decide)
  have hPC : pathComponents (joinPath notes_dir (withSuffixMdPath p)) =
      (pathComponents notes_dir ++ pathComponents (gs.map String.mk)) ++
        [pyWithSuffix (String.mk g) ".md"] := by
    rw [joinPath, if_neg (by simp [habs2]), splitPath, hsplit2,
      List.map_append, List.map_singleton,
      show String.mk (pyWithSuffix (String.mk g) ".md").data =
        pyWithSuffix (String.mk g) ".md" from rfl,
      ← List.append_assoc, pathComponents_append, pathComponents_append,
      pathComponents_singleton_keep _ hne2 hdot2]
  simp only [saveFullPath, hPC]
  rw [if_pos (by simp [hends])]

/-- C7 (amended): only `save_note` normalizes a missing `.md` extension,
with full `with_suffix` semantics — for every relative note path `p` that
does not end in `.md`, saving under `p` behaves exactly like saving under
the path whose final component has its extension replaced by `.md` (or
`.md` appended when it has none, the stem always kept).  The other
operations use the supplied path verbatim: whenever nothing exists at the
verbatim path — in particular right after such a save, which wrote to the
normalized path instead — `get_note_content` returns `None` and
`delete_note` and `move_note` return `False`, all without mutating
anything. -/
theorem save_normalizes_read_delete_verbatim (notes_dir : AbsPath)
    (p q c : String) (fs : FS)
    (hmd : strEndsWith p ".md" = false)
    (habs : isAbsolute p = false)
    (hg : (splitOnChar '/' p.data).getLastD [] ≠ [])
    (hgdot : String.mk ((splitOnChar '/' p.data).getLastD []) ≠ ".") :
    save_note notes_dir p c fs =
        save_note notes_dir (withSuffixMdPath p) c fs ∧
      pyWithSuffix (String.mk ((splitOnChar '/' p.data).getLastD []))
          ".md" =
        pyStemStr (String.mk ((splitOnChar '/' p.data).getLastD [])) ++
          ".md" ∧
      (∀ fs2 : FS,
        fs2.pathExists
            (resolveSegs (pathComponents (joinPath notes_dir p))) = false →
        get_note_content notes_dir p fs2 = none ∧
          delete_note notes_dir p fs2 = (.ok false, fs2) ∧
          move_note notes_dir p q fs2 = (.ok false, fs2)) := by
  have hGne : splitOnChar '/' p.data ≠ [] := splitOnChar_ne_nil '/' p.data
  have hlast : (splitOnChar '/' p.data).getLast? =
      some ((splitOnChar '/' p.data).getLastD []) := by
    rw [List.getLastD_eq_getLast?, List.getLast?_eq_getLast _ hGne]
    rfl
  have hsplit : splitOnChar '/' p.data =
      (splitOnChar '/' p.data).dropLast ++
        [(splitOnChar '/' p.data).getLastD []] :=
    (List.dropLast_append_getLast? _ hlast).symm
  refine ⟨?_, pyWithSuffix_md_eq_stem _, ?_⟩
  · have h1 := saveFullPath_decomp notes_dir p _ _ hsplit hmd habs hg hgdot
    have h2 := saveFullPath_withSuffixMdPath notes_dir p _ _ hsplit habs hg
    simp only [save_note, h1, h2]
  · intro fs2 hnex
    refine ⟨?_, ?_, ?_⟩
    · simp only [get_note_content]
      split_ifs with h1 h2
      all_goals
        first
          | rfl
          | exact absurd (Or.inl (by simp [hnex])) h1
    · simp only [delete_note]
      split_ifs with h1 h2 h3
      all_goals
        first
          | rfl
          | exact absurd h1 (by simp [hnex])
    · simp only [move_note]
      split_ifs with h1 h2
      all_goals
        first
          | rfl
          | exact absurd h2 (by simp [hnex])

theorem save_normalizes_read_delete_verbatim_witness :
    (save_note ["d"] "a.txt" "hello" ⟨[], [["d"]]⟩ =
        save_note ["d"] (withSuffixMdPath "a.txt") "hello" ⟨[], [["d"]]⟩) ∧
      pyWithSuffix (String.mk ((splitOnChar '/' "a.txt".data).getLastD []))
          ".md" =
        pyStemStr
            (String.mk ((splitOnChar '/' "a.txt".data).getLastD [])) ++
          ".md" ∧
      (get_note_content ["d"] "a.txt"
            (save_note ["d"] "a.txt" "hello" ⟨[], [["d"]]⟩).2 = none ∧
        delete_note ["d"] "a.txt"
            (save_note ["d"] "a.txt" "hello" ⟨[], [["d"]]⟩).2 =
          (.ok false, (save_note ["d"] "a.txt" "hello" ⟨[], [["d"]]⟩).2) ∧
        move_note ["d"] "a.txt" "b.md"
            (save_note ["d"] "a.txt" "hello" ⟨[], [["d"]]⟩).2 =
          (.ok false, (save_note ["d"] "a.txt" "hello" ⟨[], [["d"]]⟩).2)) :=
  ⟨(save_normalizes_read_delete_verbatim ["d"] "a.txt" "b.md" "hello"
        ⟨[], [["d"]]⟩ (by decide) (by decide) (by decide) (by decide)).1,
    (save_normalizes_read_delete_verbatim ["d"] "a.txt" "b.md" "hello"
        ⟨[], [["d"]]⟩ (by decide) (by decide) (by decide) (by decide)).2.1,
    (save_normalizes_read_delete_verbatim ["d"] "a.txt" "b.md" "hello"
        ⟨[], [["d"]]⟩ (by decide) (by decide) (by decide) (by decide)).2.2
      _ (by decide)⟩

theorem delete_note_dirs (notes_dir : AbsPath) (p : String) (fs : FS) :
    (delete_note notes_dir p fs).2.dirs = fs.dirs := by
  simp only [delete_note]
  split_ifs <;> rfl

theorem get_all_folders_dirs_congr (notes_dir : AbsPath) (fs gs : FS)
    (h : fs.dirs = gs.dirs) :
    get_all_folders notes_dir fs = get_all_folders notes_dir gs := by
  simp [get_all_folders, h]

theorem get_all_folders_mono (notes_dir : AbsPath) (fs gs : FS)
    (h : ∀ d ∈ fs.dirs, d ∈ gs.dirs) (folder : String)
    (hm : folder ∈ get_all_folders notes_dir fs) :
    folder ∈ get_all_folders notes_dir gs := by
  simp only [get_all_folders] at hm ⊢
  rw [(List.perm_insertionSort _ _).mem_iff, List.mem_dedup,
    List.mem_filterMap] at hm ⊢
  obtain ⟨d, hd, hfd⟩ := hm
  exact ⟨d, h d hd, hfd⟩

/-- Renaming a path that is a regular file never changes the directory
set. -/
theorem rename_file_dirs (fs : FS) (old new : AbsPath) (fs2 : FS)
    (hf : fs.isFile old = true) (h : fs.rename old new = some fs2) :
    fs2.dirs = fs.dirs := by
  simp only [FS.rename] at h
  split_ifs at h with hc1 hc2
  · cases h
    rfl
  · rcases hfc : fs.findFile? old with _ | c0
    · rw [hfc] at h
      exact absurd h (by simp)
    · rw [hfc] at h
      cases h
      rfl

theorem move_note_dirs_sub (notes_dir : AbsPath) (old_path new_path : String)
    (fs : FS)
    (hf : fs.isFile
        (resolveSegs (pathComponents (joinPath notes_dir old_path))) = true) :
    ∀ d ∈ fs.dirs, d ∈ (move_note notes_dir old_path new_path fs).2.dirs := by
  intro d hd
  simp only [move_note]
  split_ifs with h1 h2
  all_goals try exact hd
  rcases hmk : fs.mkdirParents
      (resolveSegs (pathComponents (joinPath notes_dir new_path)).dropLast)
    with _ | fs1
  · exact hd
  · have hfs1 : fs1 =
        ⟨fs.files,
          prefixesOf
              (resolveSegs
                (pathComponents (joinPath notes_dir new_path)).dropLast) ++
            fs.dirs⟩ := by
      simp only [FS.mkdirParents] at hmk
      split at hmk
      · exact absurd hmk (by simp)
      · cases hmk
        rfl
    have hd1 : d ∈ fs1.dirs := by
      rw [hfs1]
      exact List.mem_append_right _ hd
    have hf1 : fs1.isFile
        (resolveSegs (pathComponents (joinPath notes_dir old_path))) =
          true := by
      rw [hfs1]
      exact hf
    show d ∈ (match fs1.rename
        (resolveSegs (pathComponents (joinPath notes_dir old_path)))
        (resolveSegs (pathComponents (joinPath notes_dir new_path))) with
      | some fs2 => (PyResult.ok true, fs2)
      | none => (PyResult.raised, fs1)).2.dirs
    rcases hren : fs1.rename
        (resolveSegs (pathComponents (joinPath notes_dir old_path)))
        (resolveSegs (pathComponents (joinPath notes_dir new_path)))
      with _ | fs2
    · exact hd1
    · show d ∈ fs2.dirs
      rw [rename_file_dirs fs1 _ _ fs2 hf1 hren]
      exact hd1

/-- C8: deleting a note never touches directories, and moving a note (a
source path resolving to a file) never removes any directory — every folder
listed before the operation is still listed afterwards. -/
theorem folders_survive_note_ops (notes_dir : AbsPath) (p q folder : String)
    (fs : FS) :
    (delete_note notes_dir p fs).2.dirs = fs.dirs ∧
      (folder ∈ get_all_folders notes_dir fs →
        folder ∈ get_all_folders notes_dir (delete_note notes_dir p fs).2) ∧
      (fs.isFile (resolveSegs (pathComponents (joinPath notes_dir p))) =
          true →
        folder ∈ get_all_folders notes_dir fs →
          folder ∈ get_all_folders notes_dir
            (move_note notes_dir p q fs).2) := by
  refine ⟨delete_note_dirs _ _ _, ?_, ?_⟩
  · intro hm
    rw [get_all_folders_dirs_congr notes_dir (delete_note notes_dir p fs).2 fs
      (delete_note_dirs notes_dir p fs)]
    exact hm
  · intro hf hm
    exact get_all_folders_mono notes_dir fs _
      (move_note_dirs_sub notes_dir p q fs hf) folder hm

theorem folders_survive_note_ops_witness :
    (delete_note ["d"] "f/a.md"
          ⟨[(["d", "f", "a.md"], "A")], [["d"], ["d", "f"]]⟩).2.dirs =
        [["d"], ["d", "f"]] ∧
      ("f" ∈ get_all_folders ["d"]
          (delete_note ["d"] "f/a.md"
            ⟨[(["d", "f", "a.md"], "A")], [["d"], ["d", "f"]]⟩).2) ∧
      ("f" ∈ get_all_folders ["d"]
          (move_note ["d"] "f/a.md" "g/a.md"
            ⟨[(["d", "f", "a.md"], "A")], [["d"], ["d", "f"]]⟩).2) :=
  ⟨(folders_survive_note_ops ["d"] "f/a.md" "g/a.md" "f"
      ⟨[(["d", "f", "a.md"], "A")], [["d"], ["d", "f"]]⟩).1,
    (folders_survive_note_ops ["d"] "f/a.md" "g/a.md" "f"
        ⟨[(["d", "f", "a.md"], "A")], [["d"], ["d", "f"]]⟩).2.1 (by decide),
    (folders_survive_note_ops ["d"] "f/a.md" "g/a.md" "f"
        ⟨[(["d", "f", "a.md"], "A")], [["d"], ["d", "f"]]⟩).2.2 (by decide)
      (by decide)⟩

/-- C3 (amended): both resolvers try their tiers in a fixed order, stopping
at the first hit.  The wikilink resolver is exactly the claimed chain
(1)-(5) — in particular the filename tier (6) is never applied to bracketed
references.  The inline resolver differs from the claimed chain only in
that its tiers (2)/(4) append the extension just when it is missing, and
its final tier looks up the last path segment and then the last path
segment with the extension ensured. -/
theorem resolver_tier_order (c : Corpus) (t : String) :
    resolveWikilink c t = resolveWikiClaim c t ∧
      resolveMarkdown c t = resolveInlineAmended c t := by
  constructor
  · simp only [resolveWikilink, resolveWikiClaim, tierExactPath, tierPlusExt,
      tierCIPath, tierCIPlusExt, tierName, firstHit, List.foldl]
    split_ifs <;> try rfl
    all_goals
      cases h1 : dictGet? c.note_paths_lower (strToLower (strTrim t)) <;>
        cases h2 : dictGet? c.note_paths_lower
          (strToLower (strTrim t) ++ ".md") <;>
        cases h3 : dictGet? c.note_names (strToLower (strTrim t)) <;>
        simp [h1, h2, h3]
  · simp only [resolveMarkdown, resolveInlineAmended, tierExactPath,
      tierPlusExtIfMissing, tierCIPath, tierCIPlusExtIfMissing, tierFileName,
      firstHit, List.foldl]
    split_ifs <;> try rfl
    all_goals
      cases h1 : dictGet? c.note_paths_lower (strToLower t) <;>
        cases h2 : dictGet? c.note_paths_lower
          (strToLower (if strEndsWith t ".md" = true then t
            else t ++ ".md")) <;>
        simp [h1, h2]

/-- Helper: the deduplicated edge list has pairwise-distinct keys, none of
them in `seen`. -/
theorem dedupEdges_nodup_aux (es : List Edge) (seen : List (String × String)) :
    ((dedupEdges es seen).map edgeKey).Nodup ∧
      ∀ e ∈ dedupEdges es seen, edgeKey e ∉ seen := by
  induction es generalizing seen with
  | nil => simp [dedupEdges]
  | cons x rest ih =>
    by_cases h : edgeKey x ∈ seen
    · simp only [dedupEdges, if_pos h]
      exact ih seen
    · simp only [dedupEdges, if_neg h, List.map_cons, List.nodup_cons]
      refine ⟨⟨?_, (ih (edgeKey x :: seen)).1⟩, ?_⟩
      · intro hmem
        rcases List.mem_map.1 hmem with ⟨e, he, hk⟩
        exact (ih (edgeKey x :: seen)).2 e he (hk ▸ List.mem_cons_self _ _)
      · intro e he
        rcases List.mem_cons.1 he with rfl | he2
        · exact h
        · intro hs
          exact (ih (edgeKey x :: seen)).2 e he2 (List.mem_cons_of_mem _ hs)

/-- Helper: every surviving edge is the first edge of the raw list that
carries its key (so the first-seen kind is the one retained). -/
theorem dedupEdges_first_seen (es : List Edge) (seen : List (String × String))
    (e : Edge) (he : e ∈ dedupEdges es seen) (hk : edgeKey e ∉ seen) :
    es.find? (fun x => decide (edgeKey x = edgeKey e)) = some e := by
  induction es generalizing seen with
  | nil => simp [dedupEdges] at he
  | cons x rest ih =>
    by_cases h : edgeKey x ∈ seen
    · have he2 : e ∈ dedupEdges rest seen := by
        simpa [dedupEdges, if_pos h] using he
      have hne : edgeKey x ≠ edgeKey e := fun hEq => hk (hEq ▸ h)
      rw [List.find?_cons_of_neg _ (by simp [hne])]
      exact ih seen he2 hk
    · simp only [dedupEdges, if_neg h] at he
      rcases List.mem_cons.1 he with rfl | he2
      · rw [List.find?_cons_of_pos _ (by simp)]
      · have hne : edgeKey e ≠ edgeKey x := by
          have := (dedupEdges_nodup_aux rest (edgeKey x :: seen)).2 e he2
          intro hEq
          exact this (hEq ▸ List.mem_cons_self _ _)
        rw [List.find?_cons_of_neg _ (by simpa using Ne.symm hne)]
        exact ih (edgeKey x :: seen) he2
          ((dedupEdges_nodup_aux rest (edgeKey x :: seen)).2 e he2)

/-- C4 (amended): the graph deduplicates edges by the *ordered* pair
(source, target), ignoring the reference kind; each returned edge is the
first raw edge bearing its (source, target) pair, so the first-seen kind is
retained — in particular a note referencing the same target through both a
wikilink and a markdown link contributes exactly one edge. -/
theorem get_graph_dedup_ordered_pair (notes : List (String × Option String)) :
    (((get_graph notes).edges).map edgeKey).Nodup ∧
      ∀ e ∈ (get_graph notes).edges,
        (rawEdges notes).find? (fun x => decide (edgeKey x = edgeKey e)) =
          some e := by
  refine ⟨(dedupEdges_nodup_aux (rawEdges notes) []).1, ?_⟩
  intro e he
  exact dedupEdges_first_seen (rawEdges notes) [] e he (by simp)

theorem get_graph_dedup_ordered_pair_witness :
    (((get_graph [("A.md", some "[[B]] and [x](B.md)"), ("B.md", some "hi")]).edges).map
        edgeKey).Nodup ∧
      (rawEdges [("A.md", some "[[B]] and [x](B.md)"), ("B.md", some "hi")]).find?
          (fun x =>
            decide (edgeKey x = edgeKey ⟨"A.md", "B.md", "wikilink"⟩)) =
        some ⟨"A.md", "B.md", "wikilink"⟩ :=
  ⟨(get_graph_dedup_ordered_pair
      [("A.md", some "[[B]] and [x](B.md)"), ("B.md", some "hi")]).1,
    (get_graph_dedup_ordered_pair
        [("A.md", some "[[B]] and [x](B.md)"), ("B.md", some "hi")]).2
      ⟨"A.md", "B.md", "wikilink"⟩ (by decide)⟩

theorem read_delete_outside_root_like_missing_witness :
    (get_note_content ["d"] "../s.md" ⟨[(["s.md"], "S")], [["d"]]⟩ = none ∧
        delete_note ["d"] "../s.md" ⟨[(["s.md"], "S")], [["d"]]⟩ =
          (.ok false, ⟨[(["s.md"], "S")], [["d"]]⟩)) ∧
      (get_note_content ["d"] "missing.md" ⟨[(["s.md"], "S")], [["d"]]⟩ = none ∧
        delete_note ["d"] "missing.md" ⟨[(["s.md"], "S")], [["d"]]⟩ =
          (.ok false, ⟨[(["s.md"], "S")], [["d"]]⟩)) :=
  ⟨(read_delete_outside_root_like_missing ["d"] "../s.md" _).1 (by decide),
    (read_delete_outside_root_like_missing ["d"] "missing.md" _).2 (by decide)⟩

end ND
